import Mathlib

/-!
# Verification of the rebalancer core

A shallow embedding of the portfolio rebalancing bot (`rebalance-bot.js`,
`web-server.js`, `config.js`).  JavaScript numbers are modelled as exact
rationals (`ℚ`); where the JS special values `NaN`/`Infinity` matter
(the weight calculator), a dedicated `JSNum` type models them explicitly.
Token maps (`balances`, `prices`, `weights` objects) are modelled as
functions `String → ℚ` together with the list of keys being iterated,
mirroring `for (const token in obj)` / `Object.keys(obj)` loops.
The external swap collaborator is modelled by an oracle giving the
success/failure of each submitted order.
-/

namespace Rebalancer

/-- Success outcome of the external settlement API for a submitted order,
indexed by (sellToken, buyToken, amount).  The bot's `swap` consults this
after its own same-token guard. -/
abbrev Oracle := String → String → ℚ → Bool

/-- A swap order that reached the order-submission path of `swap`
(i.e. passed the same-token guard), with its outcome. -/
structure SwapRec where
  sellToken : String
  buyToken : String
  amount : ℚ
  success : Bool
  deriving Repr, DecidableEq

/-- Configuration fields of `RebalanceBot` consumed by `rebalance`:
`this.weights` (target weights), `this.deviationThreshold`,
`this.minTradeUSD`, `this.baseToken`. -/
structure RebalConfig where
  weights : String → ℚ
  deviationThreshold : ℚ
  minTradeUSD : ℚ
  baseToken : String

/-- Pointwise update of a balance map: `balances[k] = v`. -/
def update (m : String → ℚ) (k : String) (v : ℚ) : String → ℚ :=
  fun t => if t = k then v else m t

/-- `swap(fromToken, toToken, amount)`: returns `false` immediately when
`fromToken === toToken` (no order submitted); otherwise the order is
submitted and the external outcome decides success.  The second component
is the list of orders that reached the submission path. -/
def swap (orc : Oracle) (fromToken toToken : String) (amount : ℚ) :
    Bool × List SwapRec :=
  if fromToken = toToken then (false, [])
  else (orc fromToken toToken amount,
    [⟨fromToken, toToken, amount, orc fromToken toToken amount⟩])

/-- A trade intent `{ token, diff }` pushed by the deviation detection loop. -/
structure Trade where
  token : String
  diff : ℚ
  deriving Repr, DecidableEq

/-- An entry of the `overweightTokens` list built in the WETH-underweight
branch of `rebalance` (the fields `currentValue`/`targetValue` of the JS
object are never read afterwards and are omitted). -/
structure Overweight where
  token : String
  diff : ℚ
  excessValue : ℚ
  deriving Repr, DecidableEq

/-- Stable insertion of `a` in front of the first element with a strictly
smaller key: the model of JS stable `sort((a, b) => key b - key a)`
(descending). -/
def insertDescBy {α : Type} (key : α → ℚ) (a : α) : List α → List α
  | [] => [a]
  | b :: l => if key b < key a then a :: b :: l else b :: insertDescBy key a l

/-- Stable descending sort by `key`, modelling `xs.sort((x, y) => key y - key x)`. -/
def sortDescBy {α : Type} (key : α → ℚ) : List α → List α
  | [] => []
  | a :: l => insertDescBy key a (sortDescBy key l)

/-- Stable ascending sort by `key`, modelling `xs.sort((x, y) => key x - key y)`. -/
def sortAscBy {α : Type} (key : α → ℚ) : List α → List α :=
  sortDescBy (fun a => -(key a))

/-- `totalValue = Object.keys(balances).reduce((sum, t) => sum + balances[t] * prices[t], 0)`. -/
def totalValueOf (tokens : List String) (balances prices : String → ℚ) : ℚ :=
  tokens.foldl (fun s t => s + balances t * prices t) 0

/-- The deviation-detection loop of `rebalance`: for each token of
`currentWeights`, push `{ token, diff }` iff
`Math.abs(diff) > deviationThreshold` and `Math.abs(diff * totalValue) > minTradeUSD`
(both strict). -/
def detectTrades (cfg : RebalConfig) (tokens : List String)
    (cw : String → ℚ) (totalValue : ℚ) : List Trade :=
  (tokens.map fun t => Trade.mk t (cw t - cfg.weights t)).filter
    fun tr => decide (cfg.deviationThreshold < |tr.diff|) &&
      decide (cfg.minTradeUSD < |tr.diff * totalValue|)

/-- `trades.filter(t => t.diff > 0).sort((a, b) => b.diff - a.diff)`. -/
def sellTradesOf (cfg : RebalConfig) (tokens : List String)
    (cw : String → ℚ) (totalValue : ℚ) : List Trade :=
  sortDescBy Trade.diff
    ((detectTrades cfg tokens cw totalValue).filter fun tr => decide (0 < tr.diff))

/-- `trades.filter(t => t.diff < 0).sort((a, b) => a.diff - b.diff)`. -/
def buyTradesOf (cfg : RebalConfig) (tokens : List String)
    (cw : String → ℚ) (totalValue : ℚ) : List Trade :=
  sortAscBy Trade.diff
    ((detectTrades cfg tokens cw totalValue).filter fun tr => decide (tr.diff < 0))

/-- The sell loop of `rebalance`: for each sell trade in order, compute
`sellAmount = (currentValue - targetValue) / price`; if `sellAmount >= 0.00001`
call `swap(token, baseToken, sellAmount)`; on success debit the token and
credit the base token with `excessValue / basePrice * 0.98`; on failure or
below the dust floor, leave balances untouched and continue. -/
def sellPhase (orc : Oracle) (cfg : RebalConfig) (prices : String → ℚ)
    (totalValue : ℚ) : List Trade → (String → ℚ) → (String → ℚ) × List SwapRec
  | [], b => (b, [])
  | tr :: rest, b =>
    let excessValue := b tr.token * prices tr.token - totalValue * cfg.weights tr.token
    let sellAmount := excessValue / prices tr.token
    if 1 / 100000 ≤ sellAmount then
      let res := swap orc tr.token cfg.baseToken sellAmount
      let b' := if res.1 then
          let b1 := update b tr.token (b tr.token - sellAmount)
          update b1 cfg.baseToken
            (b1 cfg.baseToken + excessValue / prices cfg.baseToken * (98 / 100))
        else b
      let next := sellPhase orc cfg prices totalValue rest b'
      (next.1, res.2 ++ next.2)
    else
      sellPhase orc cfg prices totalValue rest b

/-- The `overweightTokens` list of the WETH-underweight branch: every token
of `currentWeights` other than the base token with `diff > 0`, carrying
`excessValue = balances[t] * prices[t] - totalValue * weights[t]` computed
from the (post-sell-phase) balances. -/
def overweightList (cfg : RebalConfig) (tokens : List String)
    (cw b prices : String → ℚ) (totalValue : ℚ) : List Overweight :=
  (tokens.filter fun t =>
      decide (t ≠ cfg.baseToken) && decide (0 < cw t - cfg.weights t)).map
    fun t => ⟨t, cw t - cfg.weights t,
      b t * prices t - totalValue * cfg.weights t⟩

/-- `overweightTokens.sort((a, b) => b.excessValue - a.excessValue)`. -/
def deficitCandidates (cfg : RebalConfig) (tokens : List String)
    (cw b prices : String → ℚ) (totalValue : ℚ) : List Overweight :=
  sortDescBy Overweight.excessValue (overweightList cfg tokens cw b prices totalValue)

/-- The greedy loop of the WETH-underweight branch: break once
`remainingNeeded <= 1`; otherwise `sellValue = min(excessValue, remainingNeeded)`;
if `sellValue > minTradeUSD` call `swap(token, baseToken, sellValue / price)`;
on success debit the token, credit the base token with
`sellValue / basePrice * 0.98` and decrease the remaining need. -/
def deficitLoop (orc : Oracle) (cfg : RebalConfig) (prices : String → ℚ) :
    List Overweight → ℚ → (String → ℚ) → (String → ℚ) × ℚ × List SwapRec
  | [], rem, b => (b, rem, [])
  | ow :: rest, rem, b =>
    if rem ≤ 1 then (b, rem, [])
    else
      let sellValue := min ow.excessValue rem
      if cfg.minTradeUSD < sellValue then
        let sellAmount := sellValue / prices ow.token
        let res := swap orc ow.token cfg.baseToken sellAmount
        if res.1 then
          let b1 := update b ow.token (b ow.token - sellAmount)
          let b2 := update b1 cfg.baseToken
            (b1 cfg.baseToken + sellValue / prices cfg.baseToken * (98 / 100))
          let next := deficitLoop orc cfg prices rest (rem - sellValue) b2
          (next.1, next.2.1, res.2 ++ next.2.2)
        else
          let next := deficitLoop orc cfg prices rest rem b
          (next.1, next.2.1, res.2 ++ next.2.2)
      else
        deficitLoop orc cfg prices rest rem b

/-- The buy loop of `rebalance`: skip the base token (`continue`);
compute `wethAmount = (targetValue - currentValue) / basePrice`; execute
`swap(baseToken, token, wethAmount)` only if `wethAmount >= 0.0001` and the
in-memory base balance suffices; on success debit the base balance only. -/
def buyPhase (orc : Oracle) (cfg : RebalConfig) (prices : String → ℚ)
    (totalValue : ℚ) : List Trade → (String → ℚ) → (String → ℚ) × List SwapRec
  | [], b => (b, [])
  | tr :: rest, b =>
    if tr.token = cfg.baseToken then buyPhase orc cfg prices totalValue rest b
    else
      let neededValue := totalValue * cfg.weights tr.token - b tr.token * prices tr.token
      let wethAmount := neededValue / prices cfg.baseToken
      if 1 / 10000 ≤ wethAmount then
        if wethAmount ≤ b cfg.baseToken then
          let res := swap orc cfg.baseToken tr.token wethAmount
          let b' := if res.1 then
              update b cfg.baseToken (b cfg.baseToken - wethAmount)
            else b
          let next := buyPhase orc cfg prices totalValue rest b'
          (next.1, res.2 ++ next.2)
        else buyPhase orc cfg prices totalValue rest b
      else buyPhase orc cfg prices totalValue rest b

/-- Result of the sell phase inside a full `rebalance` pass. -/
def sellStage (orc : Oracle) (cfg : RebalConfig) (tokens : List String)
    (cw balances prices : String → ℚ) : (String → ℚ) × List SwapRec :=
  let tv := totalValueOf tokens balances prices
  sellPhase orc cfg prices tv (sellTradesOf cfg tokens cw tv) balances

/-- The WETH-underweight branch: runs (over the post-sell balances) only when
the base token appears among the buy trades; returns balances, the final
remaining need, and its trace. -/
def deficitStage (orc : Oracle) (cfg : RebalConfig) (tokens : List String)
    (cw balances prices : String → ℚ) : (String → ℚ) × ℚ × List SwapRec :=
  let tv := totalValueOf tokens balances prices
  let b1 := (sellStage orc cfg tokens cw balances prices).1
  if (buyTradesOf cfg tokens cw tv).any (fun tr => tr.token == cfg.baseToken) then
    let needed := tv * cfg.weights cfg.baseToken - b1 cfg.baseToken * prices cfg.baseToken
    deficitLoop orc cfg prices (deficitCandidates cfg tokens cw b1 prices tv) needed b1
  else (b1, 0, [])

/-- Result of the buy phase inside a full `rebalance` pass. -/
def buyStage (orc : Oracle) (cfg : RebalConfig) (tokens : List String)
    (cw balances prices : String → ℚ) : (String → ℚ) × List SwapRec :=
  let tv := totalValueOf tokens balances prices
  buyPhase orc cfg prices tv (buyTradesOf cfg tokens cw tv)
    (deficitStage orc cfg tokens cw balances prices).1

/-- One full `rebalance(currentWeights, balances, prices)` pass: detect
deviations; if none qualify, do nothing; otherwise run the sell phase, the
WETH-underweight branch and the buy phase in that order.  Returns the final
in-memory balances and the concatenated trace of submitted orders. -/
def rebalance (orc : Oracle) (cfg : RebalConfig) (tokens : List String)
    (cw balances prices : String → ℚ) : (String → ℚ) × List SwapRec :=
  let tv := totalValueOf tokens balances prices
  if (detectTrades cfg tokens cw tv).isEmpty then (balances, [])
  else
    ((buyStage orc cfg tokens cw balances prices).1,
      (sellStage orc cfg tokens cw balances prices).2 ++
        (deficitStage orc cfg tokens cw balances prices).2.2 ++
        (buyStage orc cfg tokens cw balances prices).2)

/-! ## Price cache (`getPrices` / `getPricesFromBinance`) -/

/-- `this.priceCache`.  The constructor initialises
`{ prices: {}, timestamp: 0, maxAge: 5 * 60 * 1000 }`; a successful Binance
fetch replaces it by `{ prices, timestamp: Date.now() }`, an object with NO
`maxAge` field — modelled as `maxAge = none`. -/
structure PriceCache where
  prices : List (String × ℚ)
  timestamp : ℚ
  maxAge : Option ℚ
  deriving Repr, DecidableEq

/-- The mutable price state of the bot: `this.priceCache` and
`this.lastKnownPrices`. -/
structure PriceState where
  priceCache : PriceCache
  lastKnownPrices : List (String × ℚ)
  deriving Repr, DecidableEq

/-- The freshness test of `getPrices`:
`this.priceCache.timestamp && (now - this.priceCache.timestamp) < this.priceCache.maxAge`.
A timestamp of `0` is falsy; comparing against an absent (`undefined`)
`maxAge` is `false` in JavaScript. -/
def cacheFresh (c : PriceCache) (now : ℚ) : Bool :=
  decide (c.timestamp ≠ 0) &&
    (match c.maxAge with
     | some m => decide (now - c.timestamp < m)
     | none => false)

/-- JS object spread `{ ...a, ...b }` on string-keyed maps: entries of `a`
with values overridden by `b`, followed by the entries of `b` whose keys are
new. -/
def mergeMaps (a b : List (String × ℚ)) : List (String × ℚ) :=
  (a.map fun p => (p.1, (List.lookup p.1 b).getD p.2)) ++
    b.filter fun p => decide (List.lookup p.1 a = Option.none)

/-- Result of one `getPrices()` call: the returned map (or `null`), the
updated price state, and whether a Binance fetch was attempted. -/
structure PricesResult where
  result : Option (List (String × ℚ))
  state : PriceState
  fetchAttempted : Bool
  deriving Repr, DecidableEq

/-- `getPrices()`: return the cached map when fresh; otherwise attempt the
Binance fetch (outcome supplied as `fetched`; a successful
`getPricesFromBinance` itself replaces `priceCache` — dropping `maxAge` —
and merges into `lastKnownPrices`, and `getPrices` merges once more); on
fetch failure fall back to `lastKnownPrices` when non-empty, else `null`. -/
def getPrices (st : PriceState) (now : ℚ)
    (fetched : Option (List (String × ℚ))) : PricesResult :=
  if cacheFresh st.priceCache now then ⟨some st.priceCache.prices, st, false⟩
  else
    match fetched with
    | some ps =>
      let merged := mergeMaps st.lastKnownPrices ps
      ⟨some ps, ⟨⟨ps, now, none⟩, mergeMaps merged ps⟩, true⟩
    | none =>
      if st.lastKnownPrices.isEmpty then ⟨none, st, true⟩
      else ⟨some st.lastKnownPrices, st, true⟩

/-- The `priceCache` value installed by the `RebalanceBot` constructor. -/
def initialPriceCache : PriceCache := ⟨[], 0, some (5 * 60 * 1000)⟩

/-! ## Target-weight configuration loading -/

/-- Equal allocation over the token list:
`Object.fromEntries(Object.keys(tokens).map(t => [t, 1 / n]))`. -/
def equalAllocation (tokens : List String) : List (String × ℚ) :=
  tokens.map fun t => (t, 1 / (tokens.length : ℚ))

/-- `this.weights` as set by the `RebalanceBot` constructor.
`customWeightsEnv = none`: `CUSTOM_WEIGHTS` unset; `some none`: set but
`JSON.parse` throws (caught, falls back to equal allocation);
`some (some w)`: parsed map, installed as-is.  No branch validates the sum
of the weights and no branch fails startup. -/
def loadWeights (tokens : List String)
    (customWeightsEnv : Option (Option (List (String × ℚ)))) :
    List (String × ℚ) :=
  match customWeightsEnv with
  | some (some w) => w
  | some none => equalAllocation tokens
  | none => equalAllocation tokens

/-- `Object.values(customWeights).reduce((sum, w) => sum + parseFloat(w), 0)`. -/
def weightSum (w : List (String × ℚ)) : ℚ :=
  (w.map Prod.snd).foldl (· + ·) 0

/-- The `customWeights` handling of `POST /api/config` (web server): reject
with HTTP 400 when `Math.abs(totalWeight - 1) > 0.01`, otherwise install the
map unchanged. -/
def apiConfigWeights (w : List (String × ℚ)) :
    Except String (List (String × ℚ)) :=
  if 1 / 100 < |weightSum w - 1| then Except.error "Weights must sum to 100 percent"
  else Except.ok w

/-! ## Weight calculator over JavaScript numbers -/

/-- A JavaScript number, as far as `calculateWeights` can observe it:
a finite value (exact, rounding not modelled), `NaN`, or a signed infinity
(`inf true` is `+Infinity`). -/
inductive JSNum where
  | num : ℚ → JSNum
  | nan : JSNum
  | inf : Bool → JSNum
  deriving Repr, DecidableEq

namespace JSNum

/-- JS multiplication restricted to the values above. -/
def mul : JSNum → JSNum → JSNum
  | num a, num b => num (a * b)
  | nan, _ => nan
  | num _, nan => nan
  | inf _, nan => nan
  | inf s, num b => if b = 0 then nan else inf (s == decide (0 < b))
  | num a, inf s => if a = 0 then nan else inf (s == decide (0 < a))
  | inf s, inf t => inf (s == t)

/-- JS addition restricted to the values above. -/
def add : JSNum → JSNum → JSNum
  | num a, num b => num (a + b)
  | nan, _ => nan
  | num _, nan => nan
  | inf _, nan => nan
  | inf s, num _ => inf s
  | num _, inf s => inf s
  | inf s, inf t => if s = t then inf s else nan

/-- JS division restricted to the values above (division of a non-zero
finite value by zero gives a signed infinity, `0/0` gives `NaN`). -/
def div : JSNum → JSNum → JSNum
  | nan, _ => nan
  | num _, nan => nan
  | inf _, nan => nan
  | num a, num b =>
    if b = 0 then (if a = 0 then nan else inf (decide (0 < a))) else num (a / b)
  | inf s, num b => inf (s == decide (0 ≤ b))
  | num _, inf _ => num 0
  | inf _, inf _ => nan

/-- `isNaN(x)` (the argument is already a number here). -/
def isNaN : JSNum → Bool
  | nan => true
  | _ => false

/-- Numeric falsiness, as used by `x || 0`: `NaN` and `0` are falsy. -/
def falsy : JSNum → Bool
  | nan => true
  | num a => decide (a = 0)
  | inf _ => false

end JSNum

/-- The total of `calculateWeights`:
`reduce((sum, t) => sum + (isNaN(value) ? 0 : value), 0)` where
`value = balances[t] * prices[t]`. -/
def totalValueJS (tokens : List String) (balances prices : String → JSNum) : JSNum :=
  tokens.foldl
    (fun s t =>
      let value := JSNum.mul (balances t) (prices t)
      JSNum.add s (if value.isNaN then JSNum.num 0 else value))
    (JSNum.num 0)

/-- `calculateWeights(balances, prices)`: if `totalValue === 0` every weight
is `0`; otherwise `weight = (balances[t] * prices[t] / totalValue) || 0`. -/
def calculateWeightsJS (tokens : List String) (balances prices : String → JSNum) :
    List (String × JSNum) :=
  let totalValue := totalValueJS tokens balances prices
  if totalValue = JSNum.num 0 then tokens.map fun t => (t, JSNum.num 0)
  else
    tokens.map fun t =>
      let w := JSNum.div (JSNum.mul (balances t) (prices t)) totalValue
      (t, if w.falsy then JSNum.num 0 else w)

/-! ## HODL comparison -/

/-- The numeric fields returned by `calculateHodlComparison`
(`daysSinceStart`/`startDate` concern wall-clock time and are omitted). -/
structure HodlOut where
  currentValue : ℚ
  hodlValue : ℚ
  initialValue : ℚ
  rebalanceGainLoss : ℚ
  hodlGainLoss : ℚ
  rebalanceVsHodl : ℚ
  rebalanceGainLossPercent : ℚ
  hodlGainLossPercent : ℚ
  rebalanceVsHodlPercent : ℚ
  deriving Repr, DecidableEq

/-- `Object.keys(m).reduce((sum, t) => sum + f(t, m[t]), 0)`. -/
def mapSum (m : List (String × ℚ)) (f : String → ℚ → ℚ) : ℚ :=
  m.foldl (fun s p => s + f p.1 p.2) 0

/-- `calculateHodlComparison(currentBalances, currentPrices)` over the bot
state `this.initialBalances` / `this.lastKnownPrices`.  A stored last-known
price of `0` is falsy, so `lastKnownPrices[t] || currentPrices[t]` falls
back to the current price for both absent and zero entries. -/
def calculateHodlComparison (initialBalances lastKnownPrices : List (String × ℚ))
    (currentBalances : List (String × ℚ)) (currentPrices : String → ℚ) : HodlOut :=
  let currentValue := mapSum currentBalances fun t q => q * currentPrices t
  let hodlValue := mapSum initialBalances fun t q => q * currentPrices t
  let initialValue :=
    if lastKnownPrices.isEmpty then hodlValue
    else
      mapSum initialBalances fun t q =>
        q * (match List.lookup t lastKnownPrices with
             | some v => if v = 0 then currentPrices t else v
             | none => currentPrices t)
  let rebalanceGainLoss := currentValue - initialValue
  let hodlGainLoss := hodlValue - initialValue
  let rebalanceVsHodl := currentValue - hodlValue
  { currentValue := currentValue
    hodlValue := hodlValue
    initialValue := initialValue
    rebalanceGainLoss := rebalanceGainLoss
    hodlGainLoss := hodlGainLoss
    rebalanceVsHodl := rebalanceVsHodl
    rebalanceGainLossPercent :=
      if 0 < initialValue then rebalanceGainLoss / initialValue * 100 else 0
    hodlGainLossPercent :=
      if 0 < initialValue then hodlGainLoss / initialValue * 100 else 0
    rebalanceVsHodlPercent :=
      if 0 < hodlValue then rebalanceVsHodl / hodlValue * 100 else 0 }

/-! ## Helper lemmas on the stable sorts -/

theorem insertDescBy_perm {α : Type} (key : α → ℚ) (a : α) (l : List α) :
    List.Perm (insertDescBy key a l) (a :: l) := by
  induction l with
  | nil => exact List.Perm.refl _
  | cons b l ih =>
    simp only [insertDescBy]
    split
    · exact List.Perm.refl _
    · exact (ih.cons b).trans (List.Perm.swap a b l)

theorem sortDescBy_perm {α : Type} (key : α → ℚ) (l : List α) :
    List.Perm (sortDescBy key l) l := by
  induction l with
  | nil => exact List.Perm.refl _
  | cons a l ih =>
    simp only [sortDescBy]
    exact (insertDescBy_perm key a (sortDescBy key l)).trans (ih.cons a)

theorem sortAscBy_perm {α : Type} (key : α → ℚ) (l : List α) :
    List.Perm (sortAscBy key l) l :=
  sortDescBy_perm _ l

theorem sorted_insertDescBy {α : Type} (key : α → ℚ) (a : α) {l : List α}
    (h : l.Sorted fun x y => key y ≤ key x) :
    (insertDescBy key a l).Sorted fun x y => key y ≤ key x := by
  induction l with
  | nil => simp [insertDescBy]
  | cons b l ih =>
    rw [List.sorted_cons] at h
    simp only [insertDescBy]
    split
    next hb =>
      rw [List.sorted_cons]
      refine ⟨fun x hx => ?_, List.sorted_cons.mpr h⟩
      rcases List.mem_cons.mp hx with rfl | hx
      · exact hb.le
      · exact (h.1 x hx).trans hb.le
    next hb =>
      rw [List.sorted_cons]
      refine ⟨fun x hx => ?_, ih h.2⟩
      rcases List.mem_cons.mp ((insertDescBy_perm key a l).mem_iff.mp hx) with rfl | hx
      · exact not_lt.mp hb
      · exact h.1 x hx

theorem sorted_sortDescBy {α : Type} (key : α → ℚ) (l : List α) :
    (sortDescBy key l).Sorted fun x y => key y ≤ key x := by
  induction l with
  | nil => simp [sortDescBy]
  | cons a l ih => exact sorted_insertDescBy key a ih

theorem sorted_sortAscBy {α : Type} (key : α → ℚ) (l : List α) :
    (sortAscBy key l).Sorted fun x y => key x ≤ key y := by
  have h := sorted_sortDescBy (fun a => -(key a)) l
  exact h.imp fun hab => by simpa using hab

/-! ## Claim theorems: configuration loading (C1) -/

/-- Claim C1 counterexample: the weight map `{"cbBTC": 2}` sums to 2 — far
outside any tolerance — yet the constructor installs it unchanged; no
load-time path rejects it and startup proceeds. -/
theorem loadWeights_accepts_bad_sum :
    loadWeights ["cbBTC", "WETH"] (some (some [("cbBTC", 2)])) = [("cbBTC", 2)] ∧
      weightSum [("cbBTC", 2)] = 2 ∧ (1 : ℚ) / 1000000 < |(2 : ℚ) - 1| := by
  refine ⟨rfl, by norm_num [weightSum], by norm_num⟩

/-- Claim C1 (amended): at load time the constructor installs any parsed
`CUSTOM_WEIGHTS` map without validating its sum, and silently falls back to
the default equal allocation when the JSON is malformed; weight-sum
validation exists only in `POST /api/config`, which rejects maps whose sum
differs from 1 by more than 0.01 and installs the rest unchanged (never
renormalized). -/
theorem config_weight_validation (tokens : List String) (w : List (String × ℚ)) :
    loadWeights tokens (some (some w)) = w ∧
      loadWeights tokens (some none) = equalAllocation tokens ∧
      loadWeights tokens none = equalAllocation tokens ∧
      (1 / 100 < |weightSum w - 1| →
        apiConfigWeights w = Except.error "Weights must sum to 100 percent") ∧
      (|weightSum w - 1| ≤ 1 / 100 → apiConfigWeights w = Except.ok w) := by
  refine ⟨rfl, rfl, rfl, fun h => ?_, fun h => ?_⟩
  · rw [apiConfigWeights, if_pos h]
  · rw [apiConfigWeights, if_neg (not_lt.mpr h)]

/-- Witness for the amended C1 theorem at concrete weight maps. -/
theorem config_weight_validation_witness :
    apiConfigWeights [("cbBTC", 2)] = Except.error "Weights must sum to 100 percent" ∧
      apiConfigWeights [("cbBTC", 1)] = Except.ok [("cbBTC", 1)] :=
  ⟨(config_weight_validation [] [("cbBTC", 2)]).2.2.2.1 (by norm_num [weightSum]),
   (config_weight_validation [] [("cbBTC", 1)]).2.2.2.2 (by norm_num [weightSum])⟩

/-! ## Claim theorems: price cache (C3) -/

/-- Claim C3 (code bug): a successful fetch replaces `this.priceCache` by an
object without a `maxAge` field, so the very next `getPrices()` call — 1 ms
later, far younger than the intended 5-minute TTL — fails the freshness test
and attempts a fresh fetch instead of returning the cached map.  Starting
from the constructor state, a successful fetch at time 1000 installs
`{ prices, timestamp: 1000 }`; the freshness test on the resulting cache is
`false` at time 1001 even though `1001 - 1000 < 5 * 60 * 1000`, and the
follow-up call reports `fetchAttempted = true`. -/
theorem getPrices_refetches_right_after_success :
    (getPrices ⟨initialPriceCache, []⟩ 1000 (some [("WETH", 2000)])).state =
        ⟨⟨[("WETH", 2000)], 1000, none⟩, [("WETH", 2000)]⟩ ∧
      cacheFresh ⟨[("WETH", 2000)], 1000, none⟩ 1001 = false ∧
      ((1001 : ℚ) - 1000 < 5 * 60 * 1000) ∧
      (getPrices ⟨⟨[("WETH", 2000)], 1000, none⟩, [("WETH", 2000)]⟩ 1001
          (some [("WETH", 2001)])).fetchAttempted = true := by
  refine ⟨by decide, by decide, by norm_num, by decide⟩

/-! ## Claim theorems: deviation detection (C4) -/

/-- Claim C4: a trade intent for token `t` with deviation `d` is produced iff
`t` is iterated, `d = currentWeights[t] - weights[t]`, `|d|` strictly
exceeds the deviation threshold, and `|d * totalValue|` strictly exceeds the
minimum trade value.  In particular a deviation exactly at the threshold is
not flagged, and failing either test produces no intent. -/
theorem detectTrades_mem_iff (cfg : RebalConfig) (tokens : List String)
    (cw : String → ℚ) (tv : ℚ) (t : String) (d : ℚ) :
    Trade.mk t d ∈ detectTrades cfg tokens cw tv ↔
      t ∈ tokens ∧ d = cw t - cfg.weights t ∧
        cfg.deviationThreshold < |d| ∧ cfg.minTradeUSD < |d * tv| := by
  simp only [detectTrades, List.mem_filter, List.mem_map, Bool.and_eq_true,
    decide_eq_true_eq]
  constructor
  · rintro ⟨⟨a, ha, heq⟩, h1, h2⟩
    cases heq
    exact ⟨ha, rfl, h1, h2⟩
  · rintro ⟨ht, rfl, h1, h2⟩
    exact ⟨⟨t, ht, rfl⟩, h1, h2⟩

/-! ## Claim theorems: HODL comparison (C10) -/

/-- Claim C10: for every price map and bot state, the HODL comparison called
with current balances equal to the baseline snapshot returns a
rebalance-vs-hodl difference of exactly 0. -/
theorem hodl_compare_baseline_zero (initialBalances lastKnownPrices : List (String × ℚ))
    (currentPrices : String → ℚ) :
    (calculateHodlComparison initialBalances lastKnownPrices initialBalances
        currentPrices).rebalanceVsHodl = 0 := by
  simp [calculateHodlComparison]

/-! ## Helper lemmas for balance nonnegativity (C2) -/

theorem update_apply_of_eq {t k : String} (h : t = k) (m : String → ℚ) (v : ℚ) :
    update m k v t = v := by simp [update, h]

theorem update_apply_of_ne {t k : String} (h : t ≠ k) (m : String → ℚ) (v : ℚ) :
    update m k v t = m t := by simp [update, h]

theorem update_nonneg {m : String → ℚ} {k : String} {v : ℚ}
    (hm : ∀ t, 0 ≤ m t) (hv : 0 ≤ v) (t : String) : 0 ≤ update m k v t := by
  simp only [update]
  split
  · exact hv
  · exact hm t

theorem swap_success_ne {orc : Oracle} {f t : String} {a : ℚ}
    (h : (swap orc f t a).1 = true) : f ≠ t := by
  intro he
  simp [swap, he] at h

theorem foldl_add_le {l : List String} {f : String → ℚ} (hf : ∀ t, 0 ≤ f t) :
    ∀ a : ℚ, a ≤ l.foldl (fun s t => s + f t) a := by
  induction l with
  | nil => intro a; simp
  | cons x l ih =>
    intro a
    simp only [List.foldl_cons]
    exact le_trans (by linarith [hf x]) (ih (a + f x))

theorem totalValueOf_nonneg {tokens : List String} {b p : String → ℚ}
    (hb : ∀ t, 0 ≤ b t) (hp : ∀ t, 0 < p t) : 0 ≤ totalValueOf tokens b p :=
  foldl_add_le (fun t => mul_nonneg (hb t) (hp t).le) 0

theorem sellPhase_nonneg (orc : Oracle) (cfg : RebalConfig) (prices : String → ℚ)
    (tv : ℚ) (hw : ∀ t, 0 ≤ cfg.weights t) (hp : ∀ t, 0 < prices t) (htv : 0 ≤ tv) :
    ∀ (trades : List Trade) (b : String → ℚ), (∀ t, 0 ≤ b t) →
      ∀ t, 0 ≤ (sellPhase orc cfg prices tv trades b).1 t := by
  intro trades
  induction trades with
  | nil => intro b hb t; simpa [sellPhase] using hb t
  | cons tr rest ih =>
    intro b hb t
    simp only [sellPhase]
    split
    next hdust =>
      refine ih _ ?_ t
      intro t'
      split
      next hok =>
        have hne := swap_success_ne hok
        have hpk := (hp tr.token).ne'
        have hsub : b tr.token -
            (b tr.token * prices tr.token - tv * cfg.weights tr.token) / prices tr.token
            = tv * cfg.weights tr.token / prices tr.token := by
          field_simp
        have hinner : ∀ t'', 0 ≤ update b tr.token
            (b tr.token - (b tr.token * prices tr.token - tv * cfg.weights tr.token) /
              prices tr.token) t'' := by
          refine update_nonneg hb ?_
          rw [hsub]
          exact div_nonneg (mul_nonneg htv (hw tr.token)) (hp tr.token).le
        refine update_nonneg hinner ?_ t'
        have hexpos : 0 ≤ b tr.token * prices tr.token - tv * cfg.weights tr.token := by
          have h1 : (0 : ℚ) <
              (b tr.token * prices tr.token - tv * cfg.weights tr.token) / prices tr.token :=
            lt_of_lt_of_le (by norm_num) hdust
          rcases div_pos_iff.mp h1 with ⟨h2, _⟩ | ⟨_, h3⟩
          · exact h2.le
          · exact absurd (hp tr.token) (not_lt.mpr h3.le)
        have hcredit : 0 ≤ (b tr.token * prices tr.token - tv * cfg.weights tr.token) /
            prices cfg.baseToken * (98 / 100) :=
          mul_nonneg (div_nonneg hexpos (hp cfg.baseToken).le) (by norm_num)
        exact add_nonneg (hinner cfg.baseToken) hcredit
      next => exact hb t'
    next => exact ih b hb t

theorem buyPhase_nonneg (orc : Oracle) (cfg : RebalConfig) (prices : String → ℚ)
    (tv : ℚ) : ∀ (trades : List Trade) (b : String → ℚ), (∀ t, 0 ≤ b t) →
      ∀ t, 0 ≤ (buyPhase orc cfg prices tv trades b).1 t := by
  intro trades
  induction trades with
  | nil => intro b hb t; simpa [buyPhase] using hb t
  | cons tr rest ih =>
    intro b hb t
    simp only [buyPhase]
    split
    next => exact ih b hb t
    next hbase =>
      split
      next hdust =>
        split
        next hsuff =>
          refine ih _ ?_ t
          intro t'
          split
          next hok => exact update_nonneg hb (by linarith) t'
          next => exact hb t'
        next => exact ih b hb t
      next => exact ih b hb t

theorem deficitLoop_nonneg (orc : Oracle) (cfg : RebalConfig) (prices : String → ℚ)
    (hp : ∀ t, 0 < prices t) (hmt : 0 ≤ cfg.minTradeUSD) :
    ∀ (l : List Overweight) (rem : ℚ) (b : String → ℚ),
      (∀ t, 0 ≤ b t) →
      (∀ ow ∈ l, ow.excessValue ≤ b ow.token * prices ow.token) →
      (l.map Overweight.token).Nodup →
      ∀ t, 0 ≤ (deficitLoop orc cfg prices l rem b).1 t := by
  intro l
  induction l with
  | nil => intro rem b hb _ _ t; simpa [deficitLoop] using hb t
  | cons ow rest ih =>
    intro rem b hb hex hnd t
    have hndtail : (rest.map Overweight.token).Nodup := (List.nodup_cons.mp hnd).2
    have hnothead : ow.token ∉ rest.map Overweight.token := (List.nodup_cons.mp hnd).1
    have hextail : ∀ o ∈ rest, o.excessValue ≤ b o.token * prices o.token :=
      fun o ho => hex o (List.mem_cons_of_mem _ ho)
    simp only [deficitLoop]
    split
    next => exact hb t
    next hrem =>
      split
      next hmin =>
        split
        next hok =>
          have hne := swap_success_ne hok
          have hsellpos : 0 < min ow.excessValue rem := lt_of_le_of_lt hmt hmin
          have hselle : min ow.excessValue rem ≤ b ow.token * prices ow.token :=
            le_trans (min_le_left _ _) (hex ow (List.mem_cons_self _ _))
          have hamt : min ow.excessValue rem / prices ow.token ≤ b ow.token :=
            (div_le_iff (hp ow.token)).mpr hselle
          have hinner : ∀ t'', 0 ≤ update b ow.token
              (b ow.token - min ow.excessValue rem / prices ow.token) t'' :=
            update_nonneg hb (by linarith)
          have hb2 : ∀ t'', 0 ≤ update
              (update b ow.token (b ow.token - min ow.excessValue rem / prices ow.token))
              cfg.baseToken
              ((update b ow.token (b ow.token - min ow.excessValue rem / prices ow.token))
                  cfg.baseToken +
                min ow.excessValue rem / prices cfg.baseToken * (98 / 100)) t'' := by
            refine update_nonneg hinner ?_
            exact add_nonneg (hinner cfg.baseToken)
              (mul_nonneg (div_nonneg hsellpos.le (hp cfg.baseToken).le) (by norm_num))
          refine ih (rem - min ow.excessValue rem) _ hb2 ?_ hndtail t
          intro o ho
          by_cases hob : o.token = cfg.baseToken
          · have hbase : o.excessValue ≤ b cfg.baseToken * prices cfg.baseToken := by
              rw [← hob]; exact hextail o ho
            have hcredit : 0 ≤ min ow.excessValue rem / prices cfg.baseToken * (98 / 100) :=
              mul_nonneg (div_nonneg hsellpos.le (hp cfg.baseToken).le) (by norm_num)
            rw [update_apply_of_eq hob,
              update_apply_of_ne (fun hc => hne hc.symm), hob]
            nlinarith [mul_nonneg hcredit (hp cfg.baseToken).le]
          · have hoow : o.token ≠ ow.token := by
              intro hcontra
              exact hnothead (hcontra ▸ List.mem_map_of_mem Overweight.token ho)
            rw [update_apply_of_ne hob, update_apply_of_ne hoow]
            exact hextail o ho
        next hfail => exact ih rem b hb hextail hndtail t
      next => exact ih rem b hb hextail hndtail t

theorem deficitCandidates_excess_le (cfg : RebalConfig) (tokens : List String)
    (cw b prices : String → ℚ) (tv : ℚ)
    (hw : ∀ t, 0 ≤ cfg.weights t) (htv : 0 ≤ tv) :
    ∀ ow ∈ deficitCandidates cfg tokens cw b prices tv,
      ow.excessValue ≤ b ow.token * prices ow.token := by
  intro ow how
  have hmem : ow ∈ overweightList cfg tokens cw b prices tv :=
    (sortDescBy_perm Overweight.excessValue _).mem_iff.mp how
  obtain ⟨t', _, rfl⟩ := List.mem_map.mp hmem
  dsimp only
  linarith [mul_nonneg htv (hw t')]

theorem deficitCandidates_tokens_nodup (cfg : RebalConfig) (tokens : List String)
    (cw b prices : String → ℚ) (tv : ℚ) (hnd : tokens.Nodup) :
    ((deficitCandidates cfg tokens cw b prices tv).map Overweight.token).Nodup := by
  have hperm := (sortDescBy_perm Overweight.excessValue
    (overweightList cfg tokens cw b prices tv)).map Overweight.token
  simp only [deficitCandidates]
  rw [hperm.nodup_iff, overweightList, List.map_map]
  have hcomp : (Overweight.token ∘ fun t =>
      (⟨t, cw t - cfg.weights t, b t * prices t - tv * cfg.weights t⟩ : Overweight))
      = fun t => t := rfl
  rw [hcomp, List.map_id']
  exact hnd.filter _

/-! ## Claim theorem for C2 -/

/-- Claim C2: starting from nonnegative balances and positive prices (with a
target-weight map that is nonnegative as the data model requires, a
nonnegative minimum trade value, and distinct iterated tokens), every
balance update performed during the sell phase, the base-token-deficit
phase and the buy phase keeps every in-memory balance nonnegative — each
phase maps any nonnegative balance map to a nonnegative one, and the final
balances of a full `rebalance` pass are nonnegative. -/
theorem rebalance_balances_nonneg (orc : Oracle) (cfg : RebalConfig)
    (tokens : List String) (cw balances prices : String → ℚ)
    (hb : ∀ t, 0 ≤ balances t) (hp : ∀ t, 0 < prices t)
    (hw : ∀ t, 0 ≤ cfg.weights t) (hmt : 0 ≤ cfg.minTradeUSD)
    (hnd : tokens.Nodup) :
    (∀ (trades : List Trade) (b : String → ℚ), (∀ t, 0 ≤ b t) →
        ∀ t, 0 ≤ (sellPhase orc cfg prices (totalValueOf tokens balances prices) trades b).1 t) ∧
      (∀ (l : List Overweight) (rem : ℚ) (b : String → ℚ), (∀ t, 0 ≤ b t) →
        (∀ ow ∈ l, ow.excessValue ≤ b ow.token * prices ow.token) →
        (l.map Overweight.token).Nodup →
        ∀ t, 0 ≤ (deficitLoop orc cfg prices l rem b).1 t) ∧
      (∀ (trades : List Trade) (b : String → ℚ), (∀ t, 0 ≤ b t) →
        ∀ t, 0 ≤ (buyPhase orc cfg prices (totalValueOf tokens balances prices) trades b).1 t) ∧
      (∀ t, 0 ≤ (rebalance orc cfg tokens cw balances prices).1 t) := by
  have htv : 0 ≤ totalValueOf tokens balances prices := totalValueOf_nonneg hb hp
  have hb1 : ∀ t, 0 ≤ (sellStage orc cfg tokens cw balances prices).1 t := by
    intro t
    simp only [sellStage]
    exact sellPhase_nonneg orc cfg prices _ hw hp htv _ balances hb t
  have hb2 : ∀ t, 0 ≤ (deficitStage orc cfg tokens cw balances prices).1 t := by
    intro t
    simp only [deficitStage]
    split
    next =>
      exact deficitLoop_nonneg orc cfg prices hp hmt _ _ _ hb1
        (deficitCandidates_excess_le cfg tokens cw _ prices _ hw htv)
        (deficitCandidates_tokens_nodup cfg tokens cw _ prices _ hnd) t
    next => exact hb1 t
  refine ⟨sellPhase_nonneg orc cfg prices _ hw hp htv,
    deficitLoop_nonneg orc cfg prices hp hmt,
    buyPhase_nonneg orc cfg prices _, ?_⟩
  intro t
  simp only [rebalance]
  split
  next => exact hb t
  next =>
    simp only [buyStage]
    exact buyPhase_nonneg orc cfg prices _ _ _ hb2 t

/-- Witness for C2 at a concrete scenario (a two-token portfolio with the
base token underweight). -/
theorem rebalance_balances_nonneg_witness :
    0 ≤ (rebalance (fun _ _ _ => true)
        ⟨fun t => if t = "T" then 1/2 else 1/2, 1/10, 1/1000000, "WETH"⟩
        ["T", "WETH"] (fun t => if t = "T" then 1 else 0)
        (fun t => if t = "T" then 1/50000 else 0) (fun _ => 1)).1 "WETH" :=
  (rebalance_balances_nonneg (fun _ _ _ => true)
      ⟨fun t => if t = "T" then 1/2 else 1/2, 1/10, 1/1000000, "WETH"⟩
      ["T", "WETH"] (fun t => if t = "T" then 1 else 0)
      (fun t => if t = "T" then 1/50000 else 0) (fun _ => 1)
      (by intro t; dsimp only; split <;> norm_num)
      (fun t => by norm_num)
      (by intro t; dsimp only; split <;> norm_num)
      (by norm_num)
      (by decide)).2.2.2 "WETH"

/-! ## Trace characterisation helpers -/

theorem sellPhase_trace_spec (orc : Oracle) (cfg : RebalConfig) (prices : String → ℚ)
    (tv : ℚ) : ∀ (trades : List Trade) (b : String → ℚ) (r : SwapRec),
      r ∈ (sellPhase orc cfg prices tv trades b).2 →
      r.buyToken = cfg.baseToken ∧ r.sellToken ≠ cfg.baseToken ∧
        1 / 100000 ≤ r.amount ∧ r.sellToken ∈ trades.map Trade.token := by
  intro trades
  induction trades with
  | nil => intro b r hr; simp [sellPhase] at hr
  | cons tr rest ih =>
    intro b r hr
    simp only [sellPhase] at hr
    split at hr
    next hdust =>
      rcases List.mem_append.mp hr with hr | hr
      · simp only [swap] at hr
        split at hr
        next => simp at hr
        next hne =>
          rcases List.mem_singleton.mp hr with rfl
          exact ⟨rfl, hne, hdust, by simp⟩
      · have h := ih _ r hr
        exact ⟨h.1, h.2.1, h.2.2.1, by simpa using Or.inr (by simpa using h.2.2.2)⟩
    next =>
      have h := ih b r hr
      exact ⟨h.1, h.2.1, h.2.2.1, by simpa using Or.inr (by simpa using h.2.2.2)⟩

theorem deficitLoop_trace_spec (orc : Oracle) (cfg : RebalConfig)
    (prices : String → ℚ) :
    ∀ (l : List Overweight) (rem : ℚ) (b : String → ℚ) (r : SwapRec),
      r ∈ (deficitLoop orc cfg prices l rem b).2.2 →
      r.buyToken = cfg.baseToken ∧ r.sellToken ≠ cfg.baseToken ∧
        ∃ sv, cfg.minTradeUSD < sv ∧ r.amount = sv / prices r.sellToken := by
  intro l
  induction l with
  | nil => intro rem b r hr; simp [deficitLoop] at hr
  | cons ow rest ih =>
    intro rem b r hr
    simp only [deficitLoop] at hr
    split at hr
    next => simp at hr
    next hrem =>
      split at hr
      next hmin =>
        split at hr
        next hok =>
          rcases List.mem_append.mp hr with hr | hr
          · simp only [swap] at hr
            split at hr
            next => simp at hr
            next hne =>
              rcases List.mem_singleton.mp hr with rfl
              exact ⟨rfl, hne, min ow.excessValue rem, hmin, rfl⟩
          · exact ih _ _ r hr
        next hfail =>
          rcases List.mem_append.mp hr with hr | hr
          · simp only [swap] at hr
            split at hr
            next => simp at hr
            next hne =>
              rcases List.mem_singleton.mp hr with rfl
              exact ⟨rfl, hne, min ow.excessValue rem, hmin, rfl⟩
          · exact ih _ _ r hr
      next => exact ih _ _ r hr

theorem buyPhase_trace_spec (orc : Oracle) (cfg : RebalConfig) (prices : String → ℚ)
    (tv : ℚ) : ∀ (trades : List Trade) (b : String → ℚ) (r : SwapRec),
      r ∈ (buyPhase orc cfg prices tv trades b).2 →
      r.sellToken = cfg.baseToken ∧ r.buyToken ≠ cfg.baseToken ∧
        1 / 10000 ≤ r.amount ∧ r.buyToken ∈ trades.map Trade.token := by
  intro trades
  induction trades with
  | nil => intro b r hr; simp [buyPhase] at hr
  | cons tr rest ih =>
    intro b r hr
    simp only [buyPhase] at hr
    split at hr
    next =>
      have h := ih b r hr
      exact ⟨h.1, h.2.1, h.2.2.1, by simpa using Or.inr (by simpa using h.2.2.2)⟩
    next hbase =>
      split at hr
      next hdust =>
        split at hr
        next hsuff =>
          rcases List.mem_append.mp hr with hr | hr
          · simp only [swap] at hr
            split at hr
            next => simp at hr
            next hne =>
              rcases List.mem_singleton.mp hr with rfl
              exact ⟨rfl, fun hc => hbase hc, hdust, by simp⟩
          · have h := ih _ r hr
            exact ⟨h.1, h.2.1, h.2.2.1, by simpa using Or.inr (by simpa using h.2.2.2)⟩
        next =>
          have h := ih b r hr
          exact ⟨h.1, h.2.1, h.2.2.1, by simpa using Or.inr (by simpa using h.2.2.2)⟩
      next =>
        have h := ih b r hr
        exact ⟨h.1, h.2.1, h.2.2.1, by simpa using Or.inr (by simpa using h.2.2.2)⟩

theorem rebalance_trace_eq (orc : Oracle) (cfg : RebalConfig) (tokens : List String)
    (cw balances prices : String → ℚ) :
    (rebalance orc cfg tokens cw balances prices).2 =
      (sellStage orc cfg tokens cw balances prices).2 ++
        (deficitStage orc cfg tokens cw balances prices).2.2 ++
        (buyStage orc cfg tokens cw balances prices).2 := by
  simp only [rebalance]
  split
  next h =>
    rw [List.isEmpty_iff] at h
    simp [sellStage, deficitStage, buyStage, sellTradesOf, buyTradesOf, h,
      sortAscBy, sortDescBy, sellPhase, buyPhase]
  next => rfl

/-- Concrete demonstration scenario: a two-token portfolio where token T
carries an excess worth exactly the sell dust floor. -/
def demoOrc : Oracle := fun _ _ _ => true

/-- Target weights T: 50 percent, threshold 10 percent, minimum trade 0,
base token WETH. -/
def demoCfg : RebalConfig := ⟨fun t => if t = "T" then 1/2 else 0, 1/10, 0, "WETH"⟩

/-- Iterated tokens of the demonstration scenario. -/
def demoTokens : List String := ["T", "WETH"]

/-- Current weights of the demonstration scenario. -/
def demoCW : String → ℚ := fun t => if t = "T" then 1 else 0

/-- Balances of the demonstration scenario. -/
def demoBalances : String → ℚ := fun t => if t = "T" then 1/50000 else 0

/-- Prices of the demonstration scenario. -/
def demoPrices : String → ℚ := fun _ => 1

/-- Evaluation of the sell-phase trace of the demonstration scenario. -/
theorem demo_sell_trace :
    (sellStage demoOrc demoCfg demoTokens demoCW demoBalances demoPrices).2 =
      [⟨"T", "WETH", 1/100000, true⟩] := by
  norm_num +decide [sellStage, sellTradesOf, detectTrades, totalValueOf, sellPhase,
    sortDescBy, insertDescBy, swap, update, List.filter_cons,
    abs_of_nonneg, abs_of_nonpos,
    demoOrc, demoCfg, demoTokens, demoCW, demoBalances, demoPrices]

/-- Evaluation of the full trace of the demonstration scenario. -/
theorem demo_rebalance_trace :
    (rebalance demoOrc demoCfg demoTokens demoCW demoBalances demoPrices).2 =
      [⟨"T", "WETH", 1/100000, true⟩] := by
  norm_num +decide [rebalance, sellStage, deficitStage, buyStage, sellTradesOf,
    buyTradesOf, detectTrades, totalValueOf, sellPhase, buyPhase, deficitLoop,
    deficitCandidates, overweightList, sortDescBy, sortAscBy, insertDescBy, swap,
    update, List.filter_cons, abs_of_nonneg, abs_of_nonpos,
    demoOrc, demoCfg, demoTokens, demoCW, demoBalances, demoPrices]

/-! ## Claim theorem for C5 -/

/-- Claim C5: sell-set intents (deviation > 0) are sorted by descending
deviation and processed before any buy processing, buy-set intents
(deviation < 0) are sorted by ascending deviation, non-base buys run only
after the base-token-deficit phase (the full trace is the concatenation
sell-phase ++ deficit-phase ++ buy-phase, and every sell/deficit order
targets the base token while every buy-phase order sells the base token),
and the base token is never the target of a direct buy swap. -/
theorem rebalance_phase_ordering (orc : Oracle) (cfg : RebalConfig)
    (tokens : List String) (cw balances prices : String → ℚ) :
    (sellTradesOf cfg tokens cw (totalValueOf tokens balances prices)).Sorted
        (fun a b => b.diff ≤ a.diff) ∧
      (buyTradesOf cfg tokens cw (totalValueOf tokens balances prices)).Sorted
        (fun a b => a.diff ≤ b.diff) ∧
      (∀ r ∈ (sellStage orc cfg tokens cw balances prices).2,
        r.buyToken = cfg.baseToken) ∧
      (∀ r ∈ (deficitStage orc cfg tokens cw balances prices).2.2,
        r.buyToken = cfg.baseToken) ∧
      (∀ r ∈ (buyStage orc cfg tokens cw balances prices).2,
        r.sellToken = cfg.baseToken ∧ r.buyToken ≠ cfg.baseToken) ∧
      (rebalance orc cfg tokens cw balances prices).2 =
        (sellStage orc cfg tokens cw balances prices).2 ++
          (deficitStage orc cfg tokens cw balances prices).2.2 ++
          (buyStage orc cfg tokens cw balances prices).2 := by
  refine ⟨sorted_sortDescBy _ _, sorted_sortAscBy _ _, ?_, ?_, ?_,
    rebalance_trace_eq orc cfg tokens cw balances prices⟩
  · intro r hr
    simp only [sellStage] at hr
    exact (sellPhase_trace_spec orc cfg prices _ _ balances r hr).1
  · intro r hr
    simp only [deficitStage] at hr
    split at hr
    next => exact (deficitLoop_trace_spec orc cfg prices _ _ _ r hr).1
    next => simp at hr
  · intro r hr
    simp only [buyStage] at hr
    have h := buyPhase_trace_spec orc cfg prices _ _ _ r hr
    exact ⟨h.1, h.2.1⟩

/-- Witness for C5 at the demonstration scenario: the single executed order
is a sell targeting the base token. -/
theorem rebalance_phase_ordering_witness :
    (⟨"T", "WETH", 1/100000, true⟩ : SwapRec).buyToken = demoCfg.baseToken :=
  (rebalance_phase_ordering demoOrc demoCfg demoTokens demoCW demoBalances
    demoPrices).2.2.1 ⟨"T", "WETH", 1/100000, true⟩
    (by rw [demo_sell_trace]; exact List.mem_singleton.mpr rfl)

/-! ## Claim theorems for C7 -/

/-- Claim C7 counterexample: token T holds 0.00002 units at price 1 with a
50 percent target, so `sellAmount = 0.00001` exactly — equal to, not
strictly above, the dust floor — and the swap IS executed (the source guard
is `>=`), refuting the claim's strict "exceeds". -/
theorem sell_dust_boundary_counterexample :
    (rebalance demoOrc demoCfg demoTokens demoCW demoBalances demoPrices).2 =
        [⟨"T", "WETH", 1/100000, true⟩] ∧
      ¬ ((1 : ℚ) / 100000 > 1 / 100000) :=
  ⟨demo_rebalance_trace, by norm_num⟩

/-- Claim C7 (amended): in the sell phase, a swap order is submitted only
for sell-set tokens other than the base token and only when
`sellAmount ≥ 0.00001` (the dust floor is met or exceeded, `>=` in the
source); and no swap whose sell token equals its buy token is ever
submitted as an order anywhere in the pass. -/
theorem sell_phase_guards (orc : Oracle) (cfg : RebalConfig) (tokens : List String)
    (cw balances prices : String → ℚ) :
    (∀ r ∈ (sellStage orc cfg tokens cw balances prices).2,
        r.buyToken = cfg.baseToken ∧ r.sellToken ≠ cfg.baseToken ∧
          1 / 100000 ≤ r.amount ∧
          r.sellToken ∈ (sellTradesOf cfg tokens cw
            (totalValueOf tokens balances prices)).map Trade.token) ∧
      ∀ r ∈ (rebalance orc cfg tokens cw balances prices).2,
        r.sellToken ≠ r.buyToken := by
  constructor
  · intro r hr
    simp only [sellStage] at hr
    exact sellPhase_trace_spec orc cfg prices _ _ balances r hr
  · intro r hr
    rw [rebalance_trace_eq] at hr
    rcases List.mem_append.mp hr with hr | hr
    · rcases List.mem_append.mp hr with hr | hr
      · simp only [sellStage] at hr
        have h := sellPhase_trace_spec orc cfg prices _ _ balances r hr
        rw [h.1]
        exact h.2.1
      · simp only [deficitStage] at hr
        split at hr
        next =>
          have h := deficitLoop_trace_spec orc cfg prices _ _ _ r hr
          rw [h.1]
          exact h.2.1
        next => simp at hr
    · simp only [buyStage] at hr
      have h := buyPhase_trace_spec orc cfg prices _ _ _ r hr
      rw [h.1]
      exact fun he => h.2.1 he.symm

/-- Witness for the amended C7 theorem at the demonstration scenario. -/
theorem sell_phase_guards_witness :
    (⟨"T", "WETH", 1/100000, true⟩ : SwapRec).sellToken ≠
      (⟨"T", "WETH", 1/100000, true⟩ : SwapRec).buyToken :=
  (sell_phase_guards demoOrc demoCfg demoTokens demoCW demoBalances demoPrices).2
    ⟨"T", "WETH", 1/100000, true⟩
    (by rw [demo_rebalance_trace]; exact List.mem_singleton.mpr rfl)

/-! ## Claim theorem for C9 -/

/-- Claim C9: when the swap submitted for a trade fails (the same-token
guard rejects it or the external outcome is unsuccessful; a thrown error is
caught by the per-trade try/catch with the same observable effect), the
in-memory balance map — and, in the deficit phase, the remaining need — is
exactly what it would have been had that trade not existed, and the
remaining trades of the pass are still processed. -/
theorem trade_failure_preserves_state (orc : Oracle) (cfg : RebalConfig)
    (prices : String → ℚ) (tv : ℚ) :
    (∀ (tr : Trade) (rest : List Trade) (b : String → ℚ),
        (tr.token = cfg.baseToken ∨
          orc tr.token cfg.baseToken
            ((b tr.token * prices tr.token - tv * cfg.weights tr.token) /
              prices tr.token) = false) →
        (sellPhase orc cfg prices tv (tr :: rest) b).1 =
          (sellPhase orc cfg prices tv rest b).1) ∧
      (∀ (ow : Overweight) (rest : List Overweight) (rem : ℚ) (b : String → ℚ),
        (ow.token = cfg.baseToken ∨
          orc ow.token cfg.baseToken (min ow.excessValue rem / prices ow.token) =
            false) →
        (deficitLoop orc cfg prices (ow :: rest) rem b).1 =
            (deficitLoop orc cfg prices rest rem b).1 ∧
          (deficitLoop orc cfg prices (ow :: rest) rem b).2.1 =
            (deficitLoop orc cfg prices rest rem b).2.1) ∧
      (∀ (tr : Trade) (rest : List Trade) (b : String → ℚ),
        orc cfg.baseToken tr.token
          ((tv * cfg.weights tr.token - b tr.token * prices tr.token) /
            prices cfg.baseToken) = false →
        (buyPhase orc cfg prices tv (tr :: rest) b).1 =
          (buyPhase orc cfg prices tv rest b).1) := by
  have hswapfail : ∀ (f t : String) (a : ℚ),
      (f = t ∨ orc f t a = false) → (swap orc f t a).1 = false := by
    intro f t a h
    rcases h with h | h
    · simp [swap, h]
    · simp only [swap]
      split
      next => rfl
      next => exact h
  refine ⟨?_, ?_, ?_⟩
  · intro tr rest b h
    simp only [sellPhase]
    split
    next =>
      rw [hswapfail tr.token cfg.baseToken _ h]
      simp
    next => rfl
  · intro ow rest rem b h
    simp only [deficitLoop]
    split
    next hrem =>
      cases rest with
      | nil => exact ⟨rfl, rfl⟩
      | cons o l =>
        simp only [deficitLoop]
        rw [if_pos hrem]
        exact ⟨rfl, rfl⟩
    next hrem =>
      split
      next hmin =>
        rw [hswapfail ow.token cfg.baseToken _ h]
        simp
      next => exact ⟨rfl, rfl⟩
  · intro tr rest b h
    simp only [buyPhase]
    split
    next => rfl
    next hbase =>
      split
      next =>
        split
        next =>
          have : (swap orc cfg.baseToken tr.token
              ((tv * cfg.weights tr.token - b tr.token * prices tr.token) /
                prices cfg.baseToken)).1 = false :=
            hswapfail _ _ _ (Or.inr h)
          rw [this]
          simp
        next => rfl
      next => rfl

/-- Witness for C9: with an oracle that fails every order, processing one
sell trade leaves the balances exactly as processing none. -/
theorem trade_failure_preserves_state_witness :
    (sellPhase (fun _ _ _ => false) demoCfg demoPrices (1/50000)
        [⟨"T", 1/2⟩] demoBalances).1 =
      (sellPhase (fun _ _ _ => false) demoCfg demoPrices (1/50000) []
        demoBalances).1 :=
  (trade_failure_preserves_state (fun _ _ _ => false) demoCfg demoPrices
    (1/50000)).1 ⟨"T", 1/2⟩ [] demoBalances (Or.inr rfl)

/-! ## Claim theorem for C6 -/

theorem deficitLoop_min_trade (orc : Oracle) (cfg : RebalConfig)
    (prices : String → ℚ) (hp : ∀ t, 0 < prices t) (l : List Overweight)
    (rem : ℚ) (b' : String → ℚ) (r : SwapRec)
    (hr : r ∈ (deficitLoop orc cfg prices l rem b').2.2) :
    cfg.minTradeUSD < r.amount * prices r.sellToken := by
  obtain ⟨-, -, sv, hsv, hamt⟩ := deficitLoop_trace_spec orc cfg prices l rem b' r hr
  rw [hamt, div_mul_cancel₀ _ (hp r.sellToken).ne']
  exact hsv

/-- Claim C6: whenever the base token is in the buy set, the deficit phase
considers every non-base token with positive excess value — whatever its
deviation-threshold status, since positive excess forces a positive
deviation (hypothesis `hcw`, satisfied when current weights are derived
from balances at a positive total) — processes candidates in descending
order of excess value, sells `min(excessValue, remainingNeeded)` from the
next qualifying candidate, stops as soon as the remaining need is at most
$1, and never sells from a candidate whose sell value does not exceed the
minimum trade value. -/
theorem deficit_phase_spec (orc : Oracle) (cfg : RebalConfig) (tokens : List String)
    (cw b prices : String → ℚ) (tv : ℚ) (hp : ∀ t, 0 < prices t)
    (hcw : ∀ t, 0 < b t * prices t - tv * cfg.weights t → cfg.weights t < cw t) :
    (∀ t ∈ tokens, t ≠ cfg.baseToken → 0 < b t * prices t - tv * cfg.weights t →
        ∃ ow ∈ deficitCandidates cfg tokens cw b prices tv,
          ow.token = t ∧ ow.excessValue = b t * prices t - tv * cfg.weights t) ∧
      (deficitCandidates cfg tokens cw b prices tv).Sorted
        (fun x y => y.excessValue ≤ x.excessValue) ∧
      (∀ (ow : Overweight) (rest : List Overweight) (rem : ℚ) (b' : String → ℚ),
        1 < rem → cfg.minTradeUSD < min ow.excessValue rem →
        ow.token ≠ cfg.baseToken →
        ∃ tail, (deficitLoop orc cfg prices (ow :: rest) rem b').2.2 =
          ⟨ow.token, cfg.baseToken, min ow.excessValue rem / prices ow.token,
            orc ow.token cfg.baseToken
              (min ow.excessValue rem / prices ow.token)⟩ :: tail) ∧
      (∀ (l : List Overweight) (rem : ℚ) (b' : String → ℚ), rem ≤ 1 →
        deficitLoop orc cfg prices l rem b' = (b', rem, [])) ∧
      (∀ (l : List Overweight) (rem : ℚ) (b' : String → ℚ) (r : SwapRec),
        r ∈ (deficitLoop orc cfg prices l rem b').2.2 →
        cfg.minTradeUSD < r.amount * prices r.sellToken) := by
  refine ⟨?_, ?_, ?_, ?_, deficitLoop_min_trade orc cfg prices hp⟩
  · intro t ht htb hex
    have hdiff : 0 < cw t - cfg.weights t := sub_pos.mpr (hcw t hex)
    refine ⟨⟨t, cw t - cfg.weights t, b t * prices t - tv * cfg.weights t⟩, ?_, rfl, rfl⟩
    simp only [deficitCandidates]
    apply (sortDescBy_perm Overweight.excessValue _).mem_iff.mpr
    simp only [overweightList, List.mem_map]
    refine ⟨t, ?_, rfl⟩
    simp only [List.mem_filter]
    exact ⟨ht, by simp [htb, hdiff]⟩
  · simp only [deficitCandidates]
    exact sorted_sortDescBy _ _
  · intro ow rest rem b' hrem hmin hne
    simp only [deficitLoop]
    rw [if_neg (not_le.mpr hrem), if_pos hmin]
    simp only [swap]
    rw [if_neg hne]
    split
    next => exact ⟨_, rfl⟩
    next => exact ⟨_, rfl⟩
  · intro l rem b' hrem
    cases l with
    | nil => rfl
    | cons ow rest =>
      simp only [deficitLoop]
      rw [if_pos hrem]

/-- Witness for C6: at concrete inputs the deficit loop stops immediately
when the remaining need is 0 ≤ $1. -/
theorem deficit_phase_spec_witness :
    deficitLoop demoOrc ⟨fun _ => 0, 1/10, 0, "WETH"⟩ demoPrices [] 0 demoBalances =
      (demoBalances, 0, []) :=
  (deficit_phase_spec demoOrc ⟨fun _ => 0, 1/10, 0, "WETH"⟩ ["T", "WETH"]
      (fun _ => 1) demoBalances demoPrices (1/50000)
      (fun t => by norm_num [demoPrices])
      (fun t _ => by norm_num)).2.2.2.1 [] 0 demoBalances (by norm_num)

/-! ## Claim theorems for C8 -/

/-- Specification-side sum of the weight values of a computed weight map. -/
def weightValsSum (l : List (String × JSNum)) : JSNum :=
  l.foldl (fun s pr => JSNum.add s pr.2) (JSNum.num 0)

/-- Specification-side: replace one token's entry by the finite number 0. -/
def zeroAt (m : String → JSNum) (k : String) : String → JSNum :=
  fun t => if t = k then JSNum.num 0 else m t

theorem totalValueJS_num_aux (b p : String → ℚ) :
    ∀ (tokens : List String) (a : ℚ),
      tokens.foldl (fun s t =>
        let value := JSNum.mul (JSNum.num (b t)) (JSNum.num (p t))
        JSNum.add s (if value.isNaN then JSNum.num 0 else value)) (JSNum.num a) =
      JSNum.num (tokens.foldl (fun s t => s + b t * p t) a) := by
  intro tokens
  induction tokens with
  | nil => intro a; rfl
  | cons x l ih =>
    intro a
    simp only [List.foldl_cons, JSNum.mul, JSNum.isNaN, JSNum.add,
      Bool.false_eq_true, if_false]
    exact ih (a + b x * p x)

theorem totalValueJS_num (tokens : List String) (b p : String → ℚ) :
    totalValueJS tokens (fun t => JSNum.num (b t)) (fun t => JSNum.num (p t)) =
      JSNum.num (totalValueOf tokens b p) :=
  totalValueJS_num_aux b p tokens 0

theorem foldl_add_shift (l : List String) (f : String → ℚ) :
    ∀ a : ℚ, l.foldl (fun s t => s + f t) a = a + l.foldl (fun s t => s + f t) 0 := by
  induction l with
  | nil => intro a; simp
  | cons x l ih =>
    intro a
    simp only [List.foldl_cons]
    rw [ih, ih (0 + f x)]
    ring

theorem foldl_add_div (l : List String) (f : String → ℚ) (c : ℚ) :
    ∀ a : ℚ, l.foldl (fun s t => s + f t / c) (a / c) =
      l.foldl (fun s t => s + f t) a / c := by
  induction l with
  | nil => intro a; rfl
  | cons x l ih =>
    intro a
    simp only [List.foldl_cons]
    rw [show a / c + f x / c = (a + f x) / c from by ring]
    exact ih (a + f x)

theorem foldl_add_div_zero (l : List String) (f : String → ℚ) (c : ℚ) :
    l.foldl (fun s t => s + f t / c) 0 = l.foldl (fun s t => s + f t) 0 / c := by
  have h := foldl_add_div l f c 0
  rw [zero_div] at h
  exact h

theorem weightValsSum_map_num (tokens : List String) (g : String → ℚ) :
    ∀ a : ℚ, (tokens.map fun t => (t, JSNum.num (g t))).foldl
        (fun s pr => JSNum.add s pr.2) (JSNum.num a) =
      JSNum.num (tokens.foldl (fun s t => s + g t) a) := by
  induction tokens with
  | nil => intro a; rfl
  | cons x l ih =>
    intro a
    simp only [List.map_cons, List.foldl_cons, JSNum.add]
    exact ih (a + g x)

theorem jsAdd_nonfin {a : JSNum} (ha : ∀ q, a ≠ JSNum.num q) (v : JSNum) :
    ∀ q, JSNum.add a v ≠ JSNum.num q := by
  intro q
  cases a with
  | num x => exact absurd rfl (ha x)
  | nan => cases v <;> simp [JSNum.add]
  | inf s =>
    cases v with
    | num y => simp [JSNum.add]
    | nan => simp [JSNum.add]
    | inf t =>
      simp only [JSNum.add]
      split <;> simp

theorem jsAdd_inf_nonfin (a : JSNum) (s : Bool) :
    ∀ q, JSNum.add a (JSNum.inf s) ≠ JSNum.num q := by
  intro q
  cases a with
  | num x => simp [JSNum.add]
  | nan => simp [JSNum.add]
  | inf t =>
    simp only [JSNum.add]
    split <;> simp

theorem totalValueJS_foldl_nonfin (b p : String → JSNum) :
    ∀ (tokens : List String) (acc : JSNum),
      ((∃ t ∈ tokens, ∃ s, JSNum.mul (b t) (p t) = JSNum.inf s) ∨
        (∀ q, acc ≠ JSNum.num q)) →
      ∀ q, tokens.foldl (fun s t =>
          let value := JSNum.mul (b t) (p t)
          JSNum.add s (if value.isNaN then JSNum.num 0 else value)) acc ≠
        JSNum.num q := by
  intro tokens
  induction tokens with
  | nil =>
    intro acc h q
    rcases h with ⟨t, ht, _⟩ | h
    · simp at ht
    · exact h q
  | cons x l ih =>
    intro acc h q
    simp only [List.foldl_cons]
    rcases h with ⟨t, ht, s, hts⟩ | hacc
    · rcases List.mem_cons.mp ht with rfl | ht
      · refine ih _ (Or.inr ?_) q
        intro q'
        simp only [hts, JSNum.isNaN, Bool.false_eq_true, if_false]
        exact jsAdd_inf_nonfin acc s q'
      · exact ih _ (Or.inl ⟨t, ht, s, hts⟩) q
    · exact ih _ (Or.inr fun q' => jsAdd_nonfin hacc _ q') q

theorem totalValueJS_inf {tokens : List String} {b p : String → JSNum} {t : String}
    (ht : t ∈ tokens) {s : Bool} (hts : JSNum.mul (b t) (p t) = JSNum.inf s) :
    ∀ q, totalValueJS tokens b p ≠ JSNum.num q :=
  totalValueJS_foldl_nonfin b p tokens (JSNum.num 0) (Or.inl ⟨t, ht, s, hts⟩)

theorem totalValueJS_nan_zero (tokens : List String) (b p : String → JSNum)
    (t0 : String) (h : (JSNum.mul (b t0) (p t0)).isNaN = true) :
    totalValueJS tokens b p = totalValueJS tokens (zeroAt b t0) (zeroAt p t0) := by
  suffices hstep : ∀ (l : List String) (acc : JSNum),
      l.foldl (fun s t =>
        let value := JSNum.mul (b t) (p t)
        JSNum.add s (if value.isNaN then JSNum.num 0 else value)) acc =
      l.foldl (fun s t =>
        let value := JSNum.mul (zeroAt b t0 t) (zeroAt p t0 t)
        JSNum.add s (if value.isNaN then JSNum.num 0 else value)) acc from
    hstep tokens (JSNum.num 0)
  intro l
  induction l with
  | nil => intro acc; rfl
  | cons x l ih =>
    intro acc
    simp only [List.foldl_cons]
    by_cases hx : x = t0
    · subst hx
      rw [show (if (JSNum.mul (b x) (p x)).isNaN then JSNum.num 0
            else JSNum.mul (b x) (p x)) = JSNum.num 0 from by rw [h]; rfl,
        show zeroAt b x x = JSNum.num 0 from by simp [zeroAt],
        show zeroAt p x x = JSNum.num 0 from by simp [zeroAt]]
      rw [show JSNum.mul (JSNum.num 0) (JSNum.num 0) = JSNum.num 0 from by
        simp [JSNum.mul]]
      rw [show (if (JSNum.num 0).isNaN then JSNum.num 0 else JSNum.num 0) =
        JSNum.num 0 from by rfl]
      exact ih _
    · rw [show zeroAt b t0 x = b x from by simp [zeroAt, hx],
        show zeroAt p t0 x = p x from by simp [zeroAt, hx]]
      exact ih _

theorem calculateWeightsJS_zero (tokens : List String) (b p : String → JSNum)
    (h : totalValueJS tokens b p = JSNum.num 0) :
    calculateWeightsJS tokens b p = tokens.map fun t => (t, JSNum.num 0) := by
  simp only [calculateWeightsJS]
  rw [if_pos h]

theorem calculateWeightsJS_finite_sum (tokens : List String) (b p : String → ℚ)
    (hpos : 0 < totalValueOf tokens b p) :
    weightValsSum (calculateWeightsJS tokens (fun t => JSNum.num (b t))
      (fun t => JSNum.num (p t))) = JSNum.num 1 := by
  have htv := totalValueJS_num tokens b p
  have hTne : totalValueOf tokens b p ≠ 0 := hpos.ne'
  have hout : calculateWeightsJS tokens (fun t => JSNum.num (b t))
      (fun t => JSNum.num (p t)) =
      tokens.map fun t => (t, JSNum.num (b t * p t / totalValueOf tokens b p)) := by
    simp only [calculateWeightsJS, htv]
    rw [if_neg (by simp [hTne])]
    apply List.map_congr_left
    intro t _
    simp only [JSNum.mul, JSNum.div]
    rw [if_neg hTne]
    by_cases hz : b t * p t / totalValueOf tokens b p = 0
    · simp [JSNum.falsy, hz]
    · simp [JSNum.falsy, hz]
  rw [hout]
  have hsum := weightValsSum_map_num tokens
    (fun t => b t * p t / totalValueOf tokens b p) 0
  rw [weightValsSum, hsum]
  congr 1
  rw [foldl_add_div_zero tokens (fun t => b t * p t) (totalValueOf tokens b p)]
  exact div_self hTne

theorem calculateWeightsJS_all_finite (tokens : List String) (b p : String → JSNum)
    (pr : String × JSNum) (hpr : pr ∈ calculateWeightsJS tokens b p) :
    ∃ q, pr.2 = JSNum.num q := by
  by_cases h0 : totalValueJS tokens b p = JSNum.num 0
  · rw [calculateWeightsJS_zero tokens b p h0] at hpr
    obtain ⟨t, _, rfl⟩ := List.mem_map.mp hpr
    exact ⟨0, rfl⟩
  · simp only [calculateWeightsJS] at hpr
    rw [if_neg h0] at hpr
    obtain ⟨t, ht, rfl⟩ := List.mem_map.mp hpr
    dsimp only
    rcases hv : JSNum.mul (b t) (p t) with q | _ | s
    · rcases hT : totalValueJS tokens b p with Tq | _ | Ts
      · have hTq : Tq ≠ 0 := fun hc => h0 (by rw [hT, hc])
        simp only [JSNum.div]
        rw [if_neg hTq]
        by_cases hz : (JSNum.num (q / Tq)).falsy = true
        · rw [if_pos hz]; exact ⟨0, rfl⟩
        · rw [if_neg hz]; exact ⟨q / Tq, rfl⟩
      · exact ⟨0, by simp [JSNum.div, JSNum.falsy]⟩
      · exact ⟨0, by simp [JSNum.div, JSNum.falsy]⟩
    · exact ⟨0, by simp [JSNum.div, JSNum.falsy]⟩
    · rcases hT : totalValueJS tokens b p with Tq | _ | Ts
      · exact absurd hT (totalValueJS_inf ht hv Tq)
      · exact ⟨0, by simp [JSNum.div, JSNum.falsy]⟩
      · exact ⟨0, by simp [JSNum.div, JSNum.falsy]⟩

/-- Claim C8 counterexample: token A's balance×price is `+Infinity` — "not a
finite number" — but it is NOT treated as contributing zero: the total
becomes `+Infinity` (had A contributed zero, the total would be B's value 1),
and although that total is positive, every computed weight collapses to 0,
so the weights do not sum to 1 within 1e-9. -/
theorem calculateWeights_infinity_counterexample :
    totalValueJS ["A", "B"]
        (fun t => if t = "A" then JSNum.inf true else JSNum.num 1)
        (fun _ => JSNum.num 1) = JSNum.inf true ∧
      totalValueJS ["B"]
        (fun t => if t = "A" then JSNum.inf true else JSNum.num 1)
        (fun _ => JSNum.num 1) = JSNum.num 1 ∧
      JSNum.inf true ≠ JSNum.num 1 ∧
      calculateWeightsJS ["A", "B"]
        (fun t => if t = "A" then JSNum.inf true else JSNum.num 1)
        (fun _ => JSNum.num 1) = [("A", JSNum.num 0), ("B", JSNum.num 0)] ∧
      weightValsSum [("A", JSNum.num 0), ("B", JSNum.num 0)] = JSNum.num 0 := by
  refine ⟨?_, ?_, by simp, ?_, ?_⟩
  · norm_num +decide [totalValueJS, JSNum.mul, JSNum.add, JSNum.isNaN]
  · norm_num +decide [totalValueJS, JSNum.mul, JSNum.add, JSNum.isNaN]
  · norm_num +decide [calculateWeightsJS, totalValueJS, JSNum.mul, JSNum.add,
      JSNum.isNaN, JSNum.div, JSNum.falsy]
  · norm_num +decide [weightValsSum, JSNum.add]

/-- Claim C8 (amended): the weight calculator treats a token whose
balance×price is `NaN` as contributing zero to the total (an infinite
product is not filtered and propagates to the total); for finite inputs
with positive total value the computed weights sum to exactly 1 — hence
within 1e-9 — with no NaN weight; if the total is exactly (numeric) zero,
every weight is exactly 0; and in all cases every reported weight is a
finite number (`NaN`/`Infinity` never reach a weight). -/
theorem calculateWeights_spec (tokens : List String) :
    (∀ (b p : String → JSNum) (t0 : String),
        (JSNum.mul (b t0) (p t0)).isNaN = true →
        totalValueJS tokens b p = totalValueJS tokens (zeroAt b t0) (zeroAt p t0)) ∧
      (∀ b p : String → ℚ, 0 < totalValueOf tokens b p →
        weightValsSum (calculateWeightsJS tokens (fun t => JSNum.num (b t))
          (fun t => JSNum.num (p t))) = JSNum.num 1) ∧
      (∀ b p : String → JSNum, totalValueJS tokens b p = JSNum.num 0 →
        calculateWeightsJS tokens b p = tokens.map fun t => (t, JSNum.num 0)) ∧
      (∀ (b p : String → JSNum) (pr : String × JSNum),
        pr ∈ calculateWeightsJS tokens b p → ∃ q, pr.2 = JSNum.num q) :=
  ⟨fun b p t0 h => totalValueJS_nan_zero tokens b p t0 h,
   fun b p hpos => calculateWeightsJS_finite_sum tokens b p hpos,
   fun b p h => calculateWeightsJS_zero tokens b p h,
   fun b p pr hpr => calculateWeightsJS_all_finite tokens b p pr hpr⟩

/-- Witness for the amended C8 theorem: a one-token all-finite portfolio
with total value 1 yields a weight sum of exactly 1. -/
theorem calculateWeights_spec_witness :
    weightValsSum (calculateWeightsJS ["A"] (fun _ => JSNum.num 1)
      (fun _ => JSNum.num 1)) = JSNum.num 1 :=
  (calculateWeights_spec ["A"]).2.1 (fun _ => 1) (fun _ => 1)
    (by norm_num [totalValueOf])

/-- Concrete instantiation of the C4 detection criterion: token T with
deviation 1/2 is flagged at threshold 1/10 and minimum trade value 0. -/
theorem detectTrades_mem_iff_witness :
    Trade.mk "T" (1/2) ∈ detectTrades demoCfg demoTokens demoCW (1/50000) :=
  (detectTrades_mem_iff demoCfg demoTokens demoCW (1/50000) "T" (1/2)).mpr
    ⟨by norm_num [demoTokens], by norm_num [demoCW, demoCfg],
     by rw [show |(1 : ℚ)/2| = 1/2 from by norm_num]; norm_num [demoCfg],
     by rw [show |(1 : ℚ)/2 * (1/50000)| = 1/100000 from by norm_num]
        norm_num [demoCfg]⟩

/-- Concrete instantiation of the C10 baseline comparison. -/
theorem hodl_compare_baseline_zero_witness :
    (calculateHodlComparison [("WETH", 1)] [] [("WETH", 1)]
      (fun _ => 2)).rebalanceVsHodl = 0 :=
  hodl_compare_baseline_zero [("WETH", 1)] [] (fun _ => 2)

end Rebalancer
